import Mathlib

/-!
Verification of the blocksuite command-pipeline engine (CommandManager)
and of the `changeTextSelectionSideways` command, against a shallow
embedding in Lean.

The CommandManager implementation itself is not among the sources; its
behaviour is modelled from the specification, with one point (sibling
context visibility inside a `tryAll` group) taken from the repository's
own CommandManager test suite, which pins that behaviour down.
-/

namespace Blocksuite

/-- A context is an open key/value bag, embedded as an association list.
Lookup returns the binding added last (later merges win). -/
abbrev Ctx : Type := List (String × String)

/-- Lookup in a context: the latest (rightmost) binding for the key wins,
mirroring JavaScript object spread semantics. -/
def Ctx.get : Ctx → String → Option String
  | [], _ => none
  | (k', v) :: rest, k =>
    match Ctx.get rest k with
    | some v' => some v'
    | none => if k' = k then some v else none

/-- Shallow merge of a context update into a base context: every key of
the update overwrites a same-named key of the base. -/
def Ctx.merge (base upd : Ctx) : Ctx := base ++ upd

/-- Right-biased choice between two lookup results, describing what a
shallow merge does on one key. -/
def Ctx.override (a b : Option String) : Option String :=
  match b with
  | some v => some v
  | none => a

/-- Modelled from the spec: outcome of invoking a command, which is a
synchronous function of (context, continuation).  `next delta` means the
command invoked its continuation with the context update `delta`
(a plain `next()` is `next []`); `stop` means it returned without
invoking the continuation (soft failure); `err e` means it threw `e`
(hard failure). -/
inductive CmdOutcome where
  | next (delta : Ctx)
  | stop
  | err (e : String)
deriving DecidableEq

/-- Whether the command invoked its continuation. -/
def CmdOutcome.callsNext : CmdOutcome → Bool
  | .next _ => true
  | _ => false

/-- The error report produced by an outcome (the `console.error` channel). -/
def CmdOutcome.errorsOf : CmdOutcome → List String
  | .err e => [e]
  | _ => []

/-- A command, embedded as a pure function from the context snapshot it
receives to its outcome. -/
abbrev CommandFn : Type := Ctx → CmdOutcome

/-- The command registry: a name either resolves to an implementation or
is unregistered. -/
abbrev Registry : Type := String → Option CommandFn

/-- Registration with overwrite semantics (last write wins). -/
def Registry.add (reg : Registry) (name : String) (f : CommandFn) : Registry :=
  fun n => if n = name then some f else reg n

/-- The trace of an execution: one entry per command invocation, in
order, recording the label of the invoked step and the exact context the
command received. -/
abbrev Trace : Type := List (String × Ctx)

/-- Result of executing one step (or a whole sub-chain): `ctx? = some c`
means success with resulting running context `c`; `none` means failure.
`trace` records every command invocation made, `errors` every reported
(caught) error. -/
structure StepResult where
  ctx? : Option Ctx
  trace : Trace
  errors : List String
deriving DecidableEq

/-- A chain step, compiled (as the implementation does with its CPS
closures) to a function from the running context to a step result. -/
abbrev ChainStep : Type := Ctx → StepResult

/-- Modelled from the spec: the chain executor core of the CommandManager
(implementation not among the sources).  Runs the steps in order against
the running context; a failed step makes the whole run fail and no later
step is invoked (short-circuit). -/
def runCmds : List ChainStep → Ctx → StepResult
  | [], ctx => ⟨some ctx, [], []⟩
  | step :: rest, ctx =>
    let r := step ctx
    match r.ctx? with
    | none => ⟨none, r.trace, r.errors⟩
    | some ctx' =>
      let r2 := runCmds rest ctx'
      ⟨r2.ctx?, r.trace ++ r2.trace, r.errors ++ r2.errors⟩

/-- Modelled from the spec: `run()` returns the overall success flag. -/
def runChain (steps : List ChainStep) (base : Ctx) : Bool :=
  (runCmds steps base).ctx?.isSome

/-- Modelled from the spec: a simple command invocation step.  The
command receives the running context merged with the per-call option
fragment; on success, its context update is merged into the running
context (without the per-call fragment); a thrown error is caught at the
point of invocation, reported, and treated as soft failure. -/
def commandStep (label : String) (f : CommandFn) (opts : Ctx) : ChainStep :=
  fun ctx =>
    let callCtx := Ctx.merge ctx opts
    match f callCtx with
    | .next delta => ⟨some (Ctx.merge ctx delta), [(label, callCtx)], []⟩
    | .stop => ⟨none, [(label, callCtx)], []⟩
    | .err e => ⟨none, [(label, callCtx)], [e]⟩

/-- Modelled from the spec: a named-invocation step resolves the name in
the registry; an unregistered name is reported as a descriptive error and
the step fails. -/
def namedStep (reg : Registry) (name : String) (opts : Ctx) : ChainStep :=
  fun ctx =>
    match reg name with
    | some f => commandStep name f opts ctx
    | none => ⟨none, [], ["command not found: " ++ name]⟩

/-- Modelled from the spec: an inline-invocation step wraps the supplied
function directly, with no registry lookup. -/
def inlineStep (f : CommandFn) : ChainStep := commandStep "inline" f []

/-- Modelled from the spec: the `try` group iterates its sub-chains in
order, each executed against the group-entry running context (a failed
sub-chain pollutes nothing); it stops at the first succeeding sub-chain
and adopts its resulting context; if none succeeds the group fails. -/
def tryAux : List (List ChainStep) → Ctx → StepResult
  | [], _ => ⟨none, [], []⟩
  | alt :: rest, ctx =>
    let r := runCmds alt ctx
    match r.ctx? with
    | some ctx' => ⟨some ctx', r.trace, r.errors⟩
    | none =>
      let r2 := tryAux rest ctx
      ⟨r2.ctx?, r.trace ++ r2.trace, r.errors ++ r2.errors⟩

/-- The `try` group as a chain step. -/
def tryStep (alts : List (List ChainStep)) : ChainStep :=
  fun ctx => tryAux alts ctx

/-- Modelled from the spec: the `tryAll` group executor.  Every sub-chain
is executed unconditionally, in order; a successful sub-chain's resulting
context becomes the accumulator from which later siblings run (the
repository's CommandManager test "should pass context correctly in
tryAll" fixes this sibling visibility); a failed sub-chain leaves the
accumulator unchanged; the group succeeds iff at least one sub-chain
succeeded, and then yields the accumulated context. -/
def tryAllAux : List (List ChainStep) → Ctx → Bool → StepResult
  | [], ctx, succeeded => ⟨if succeeded then some ctx else none, [], []⟩
  | alt :: rest, ctx, succeeded =>
    let r := runCmds alt ctx
    match r.ctx? with
    | some ctx' =>
      let r2 := tryAllAux rest ctx' true
      ⟨r2.ctx?, r.trace ++ r2.trace, r.errors ++ r2.errors⟩
    | none =>
      let r2 := tryAllAux rest ctx succeeded
      ⟨r2.ctx?, r.trace ++ r2.trace, r.errors ++ r2.errors⟩

/-- The `tryAll` group as a chain step. -/
def tryAllStep (alts : List (List ChainStep)) : ChainStep :=
  fun ctx => tryAllAux alts ctx false

/-- Specification of a simple (named-and-resolved or inline) step: a
label for the trace, a per-call option fragment, and the command. -/
abbrev SimpleSpec : Type := String × Ctx × CommandFn

/-- Compile a simple specified step to a chain step. -/
def compileSimple : SimpleSpec → ChainStep
  | (l, opts, f) => commandStep l f opts

/-- The running context after a sequence of successful context updates,
merged in step order. -/
def chainCtx (base : Ctx) (deltas : List Ctx) : Ctx :=
  deltas.foldl Ctx.merge base

/-- `RunsNext base specs deltas` says: run from `base`, each listed
command, applied to the context it receives (the accumulated running
context merged with its per-call fragment), invokes its continuation
with the corresponding update of `deltas`. -/
def RunsNext : Ctx → List SimpleSpec → List Ctx → Prop
  | _, [], [] => True
  | base, (_, opts, f) :: rest, d :: ds =>
    f (Ctx.merge base opts) = .next d ∧ RunsNext (Ctx.merge base d) rest ds
  | _, _, _ => False

/-- The expected trace of a fully successful simple chain: one entry per
step, pairing its label with the context it received. -/
def chainTrace : Ctx → List SimpleSpec → List Ctx → Trace
  | _, [], _ => []
  | _, _ :: _, [] => []
  | base, (l, opts, _) :: rest, d :: ds =>
    (l, Ctx.merge base opts) :: chainTrace (Ctx.merge base d) rest ds

/-- Sequencing of step results: on success continue, accumulating trace
and errors; on failure stop. -/
def StepResult.andThen (r : StepResult) (k : Ctx → StepResult) : StepResult :=
  match r.ctx? with
  | none => r
  | some c =>
    let r2 := k c
    ⟨r2.ctx?, r.trace ++ r2.trace, r.errors ++ r2.errors⟩

/-- Traces of a list of sub-chains, each run from the same context,
concatenated in order. -/
def joinTraces (alts : List (List ChainStep)) (ctx : Ctx) : Trace :=
  (alts.map (fun a => (runCmds a ctx).trace)).flatten

/-- Errors of a list of sub-chains, each run from the same context,
concatenated in order. -/
def joinErrors (alts : List (List ChainStep)) (ctx : Ctx) : List String :=
  (alts.map (fun a => (runCmds a ctx).errors)).flatten

/-- The starting context of each sub-chain of a `tryAll` group: the
first runs from the group-entry context, and each later one from the
accumulator, which a successful sub-chain replaces with its resulting
context and a failed one leaves unchanged. -/
def tryAllStarts : List (List ChainStep) → Ctx → List Ctx
  | [], _ => []
  | a :: rest, ctx =>
    ctx :: tryAllStarts rest
      (match (runCmds a ctx).ctx? with
        | some c' => c'
        | none => ctx)

/-- Whether at least one sub-chain of a `tryAll` group, each run from its
accumulated start context, succeeded. -/
def tryAllSucceeded (alts : List (List ChainStep)) (ctx : Ctx) : Bool :=
  (alts.zip (tryAllStarts alts ctx)).any (fun p => (runCmds p.1 p.2).ctx?.isSome)

/-- The running context after a `tryAll` group: each successful sub-chain
in listed order replaces the accumulator with its resulting context; a
failed sub-chain — even one with a succeeding prefix — leaves it
unchanged, so its updates are discarded. -/
def tryAllAcc : List (List ChainStep) → Ctx → Ctx
  | [], ctx => ctx
  | a :: rest, ctx =>
    tryAllAcc rest
      (match (runCmds a ctx).ctx? with
        | some c' => c'
        | none => ctx)

/-- The trace of a `tryAll` group: one segment per sub-chain, in listed
order, each taken at the sub-chain's accumulated start context. -/
def tryAllTraces (alts : List (List ChainStep)) (ctx : Ctx) : Trace :=
  ((alts.zip (tryAllStarts alts ctx)).map (fun p => (runCmds p.1 p.2).trace)).flatten

/-- The reported errors of a `tryAll` group, in the same order. -/
def tryAllErrors (alts : List (List ChainStep)) (ctx : Ctx) : List String :=
  ((alts.zip (tryAllStarts alts ctx)).map (fun p => (runCmds p.1 p.2).errors)).flatten

/-- Every sub-chain, taken in listed order each from the accumulated
context, is a simple chain whose steps all invoke their continuations
with the given per-sub-chain update lists. -/
def SubChainsRunNext : Ctx → List (List SimpleSpec) → List (List Ctx) → Prop
  | _, [], [] => True
  | ctx, specs :: sl, ds :: dl =>
    RunsNext ctx specs ds ∧ SubChainsRunNext (chainCtx ctx ds) sl dl
  | _, _, _ => False

/-- A text node of a block element: its identity and its text length. -/
structure TextNode where
  id : Nat
  length : Nat
deriving DecidableEq

/-- A caret: the identity of the text node it points into and a character
offset (an integer, as in the JavaScript source, where `offset - 1` may
be negative). -/
structure Caret where
  node : Nat
  offset : Int
deriving DecidableEq

/-- The current text selection, as returned by
`getCurrentTextSelectionCarets`. -/
structure TextSelectionCarets where
  startCaret : Caret
  endCaret : Caret
deriving DecidableEq

/-- The host facilities `changeTextSelectionSideways` uses: the current
selection (or `null`), the text nodes of a block element, and the result
of `applyTextSelection`. -/
structure SidewaysEnv where
  getCurrentTextSelectionCarets : Option TextSelectionCarets
  getTextNodesFromElement : Nat → List TextNode
  applyTextSelection : Caret → Caret → Bool

/-- The context fields the command destructures: the `left` flag and the
optional `targetBlock`. -/
structure SidewaysCtx where
  left : Bool
  targetBlock : Option Nat
deriving DecidableEq

/-- Observable result of the command: whether it invoked its continuation
(`next`), and the `applyTextSelection` calls it attempted. -/
structure SidewaysOut where
  nextCalled : Bool
  attempts : List (Caret × Caret)
deriving DecidableEq

/-- The `changeTextSelectionSideways` command of the note block, from
`change-text-selection-sideways.ts`.  It fails softly (without invoking
its continuation) when there is no current selection or no target block,
when the end caret's node is not among the target block's text nodes,
when the sideways move leaves the document, or when applying the new
selection fails; otherwise it applies the moved selection and invokes its
continuation. -/
def changeTextSelectionSideways (env : SidewaysEnv) (ctx : SidewaysCtx) : SidewaysOut :=
  match env.getCurrentTextSelectionCarets, ctx.targetBlock with
  | none, _ => ⟨false, []⟩
  | some _, none => ⟨false, []⟩
  | some carets, some targetBlock =>
    let startCaret := carets.startCaret
    let prevEndCaret := carets.endCaret
    let texts := env.getTextNodesFromElement targetBlock
    match texts.findIdx? (fun t => t.id == prevEndCaret.node) with
    | none => ⟨false, []⟩
    | some currentTextIndex =>
      let nextEndCaret : Caret :=
        ⟨prevEndCaret.node,
         if ctx.left then prevEndCaret.offset - 1 else prevEndCaret.offset + 1⟩
      if 0 ≤ nextEndCaret.offset ∧
          nextEndCaret.offset ≤ ((texts.getD currentTextIndex ⟨0, 0⟩).length : Int) then
        if env.applyTextSelection startCaret nextEndCaret then
          ⟨true, [(startCaret, nextEndCaret)]⟩
        else ⟨false, [(startCaret, nextEndCaret)]⟩
      else
        let nextTextIndex : Int := (currentTextIndex : Int) + (if ctx.left then -1 else 1)
        if nextTextIndex < 0 ∨ (texts.length : Int) ≤ nextTextIndex then ⟨false, []⟩
        else
          let nextText := texts.getD nextTextIndex.toNat ⟨0, 0⟩
          let nextEndCaret2 : Caret :=
            ⟨nextText.id, if ctx.left then (nextText.length : Int) - 1 else 1⟩
          if env.applyTextSelection startCaret nextEndCaret2 then
            ⟨true, [(startCaret, nextEndCaret2)]⟩
          else ⟨false, [(startCaret, nextEndCaret2)]⟩

/-- A command that always invokes its continuation with no update. -/
def alwaysNext : CommandFn := fun _ => CmdOutcome.next []

/-- A command that always invokes its continuation, setting key "a". -/
def alwaysNextA : CommandFn := fun _ => CmdOutcome.next [("a", "1")]

/-- A command that always fails softly. -/
def alwaysStop : CommandFn := fun _ => CmdOutcome.stop

/-- A command that always throws. -/
def alwaysThrow : CommandFn := fun _ => CmdOutcome.err "boom"

/-- A command that always invokes its continuation, setting key "d". -/
def optCmd : CommandFn := fun _ => CmdOutcome.next [("d", "1")]

/-- A probe command that records, under key "seen", whether key "k" was
visible in the context it received. -/
def probeFn : CommandFn :=
  fun ctx => CmdOutcome.next [("seen", (Ctx.get ctx "k").getD "absent")]

/-- Two single-command `tryAll` sub-chains: the first updates key "k",
the second probes for that key. -/
def siblingAlts : List (List ChainStep) :=
  [[commandStep "c1" (fun _ => CmdOutcome.next [("k", "a")]) []],
   [commandStep "c2" probeFn []]]

/-- A registry holding exactly `command1 := alwaysNext`. -/
def regOne : Registry := Registry.add (fun _ => none) "command1" alwaysNext

/-- An environment with no current text selection. -/
def sidewaysEnvNoSel : SidewaysEnv := ⟨none, fun _ => [], fun _ _ => true⟩

theorem RunsNext.length_eq :
    ∀ {base : Ctx} {specs : List SimpleSpec} {deltas : List Ctx},
      RunsNext base specs deltas → deltas.length = specs.length
  | _, [], [], _ => rfl
  | _, _ :: _, _ :: _, h =>
    congrArg Nat.succ (RunsNext.length_eq h.2)

/-- A chain of simple steps that all invoke their continuations runs to
success, with the accumulated merged context and the expected trace. -/
theorem runCmds_runsNext :
    ∀ (specs : List SimpleSpec) (deltas : List Ctx) (base : Ctx),
      RunsNext base specs deltas →
      runCmds (specs.map compileSimple) base
        = ⟨some (chainCtx base deltas), chainTrace base specs deltas, []⟩
  | [], [], _, _ => rfl
  | [], _ :: _, _, h => absurd h (by simp [RunsNext])
  | _ :: _, [], _, h => absurd h (by simp [RunsNext])
  | (l, opts, f) :: rest, d :: ds, base, h => by
    have ih := runCmds_runsNext rest ds (Ctx.merge base d) h.2
    simp only [List.map_cons, runCmds, compileSimple, commandStep, h.1, ih]
    rfl

theorem runCmds_cons (s : ChainStep) (rest : List ChainStep) (ctx : Ctx) :
    runCmds (s :: rest) ctx = (s ctx).andThen (runCmds rest) := by
  cases h : s ctx with
  | mk c t e => cases c <;> simp [runCmds, StepResult.andThen, h]

theorem StepResult.andThen_assoc (r : StepResult) (k1 k2 : Ctx → StepResult) :
    (r.andThen k1).andThen k2 = r.andThen (fun c => (k1 c).andThen k2) := by
  cases r with
  | mk c t e =>
    cases c with
    | none => simp [StepResult.andThen]
    | some c' =>
      cases h : k1 c' with
      | mk c2 t2 e2 =>
        cases c2 with
        | none => simp [StepResult.andThen, h]
        | some c2' =>
          cases h2 : k2 c2' with
          | mk c3 t3 e3 => simp [StepResult.andThen, h, h2]

/-- Splitting a chain execution at an append. -/
theorem runCmds_append (a b : List ChainStep) (ctx : Ctx) :
    runCmds (a ++ b) ctx = (runCmds a ctx).andThen (runCmds b) := by
  induction a generalizing ctx with
  | nil =>
    cases h : runCmds b ctx with
    | mk c t e => simp [runCmds, StepResult.andThen, h]
  | cons s rest ih =>
    calc runCmds ((s :: rest) ++ b) ctx
        = (s ctx).andThen (runCmds (rest ++ b)) := runCmds_cons s (rest ++ b) ctx
      _ = (s ctx).andThen (fun c => (runCmds rest c).andThen (runCmds b)) :=
          congrArg ((s ctx).andThen) (funext ih)
      _ = ((s ctx).andThen (runCmds rest)).andThen (runCmds b) :=
          (StepResult.andThen_assoc (s ctx) (runCmds rest) (runCmds b)).symm
      _ = (runCmds (s :: rest) ctx).andThen (runCmds b) := by rw [runCmds_cons]

/-- A `try` group all of whose sub-chains fail is itself a failure; every
sub-chain was executed, each from the group-entry context. -/
theorem tryAux_all_fail (alts : List (List ChainStep)) :
    ∀ ctx : Ctx, (∀ alt ∈ alts, (runCmds alt ctx).ctx? = none) →
      tryAux alts ctx = ⟨none, joinTraces alts ctx, joinErrors alts ctx⟩ := by
  induction alts with
  | nil =>
    intro ctx _
    simp [tryAux, joinTraces, joinErrors]
  | cons a rest ih =>
    intro ctx h
    have ha := h a (List.mem_cons_self a rest)
    have hrest := ih ctx (fun alt hm => h alt (List.mem_cons_of_mem a hm))
    cases hr : runCmds a ctx with
    | mk c t e =>
      rw [hr] at ha
      cases c with
      | some c' => exact absurd ha (by simp)
      | none =>
        simp [tryAux, hr, hrest, joinTraces, joinErrors]

/-- A `try` group stops at its first succeeding sub-chain: the failing
ones before it each ran from the group-entry context, the succeeding one
determines the resulting context, and the sub-chains after it are never
executed. -/
theorem tryAux_first_success (front : List (List ChainStep)) (s : List ChainStep)
    (rest : List (List ChainStep)) :
    ∀ (ctx ctx' : Ctx), (∀ alt ∈ front, (runCmds alt ctx).ctx? = none) →
      (runCmds s ctx).ctx? = some ctx' →
      tryAux (front ++ s :: rest) ctx =
        ⟨some ctx', joinTraces front ctx ++ (runCmds s ctx).trace,
          joinErrors front ctx ++ (runCmds s ctx).errors⟩ := by
  induction front with
  | nil =>
    intro ctx ctx' _ hs
    cases hr : runCmds s ctx with
    | mk c t e =>
      rw [hr] at hs
      cases c with
      | none => exact absurd hs (by simp)
      | some c'' =>
        have : c'' = ctx' := by simpa using hs
        subst this
        simp [tryAux, hr, joinTraces, joinErrors]
  | cons a front' ih =>
    intro ctx ctx' hf hs
    have ha := hf a (List.mem_cons_self a front')
    have hrest := ih ctx ctx' (fun alt hm => hf alt (List.mem_cons_of_mem a hm)) hs
    cases hr : runCmds a ctx with
    | mk c t e =>
      rw [hr] at ha
      cases c with
      | some c' => exact absurd ha (by simp)
      | none =>
        simp [tryAux, hr, hrest, joinTraces, joinErrors]

theorem tryAllAux_trace (alts : List (List ChainStep)) :
    ∀ (ctx : Ctx) (s : Bool),
      (tryAllAux alts ctx s).trace =
        ((alts.zip (tryAllStarts alts ctx)).map (fun p => (runCmds p.1 p.2).trace)).flatten := by
  induction alts with
  | nil => intro ctx s; simp [tryAllAux, tryAllStarts]
  | cons a rest ih =>
    intro ctx s
    cases hr : runCmds a ctx with
    | mk c t e =>
      cases c with
      | some c' =>
        simp [tryAllAux, tryAllStarts, hr, ih]
      | none =>
        simp [tryAllAux, tryAllStarts, hr, ih]

@[simp] theorem CmdOutcome.callsNext_next (d : Ctx) :
    (CmdOutcome.next d).callsNext = true := rfl

@[simp] theorem CmdOutcome.callsNext_stop : CmdOutcome.stop.callsNext = false := rfl

@[simp] theorem CmdOutcome.callsNext_err (e : String) :
    (CmdOutcome.err e).callsNext = false := rfl

@[simp] theorem CmdOutcome.errorsOf_next (d : Ctx) :
    (CmdOutcome.next d).errorsOf = [] := rfl

@[simp] theorem CmdOutcome.errorsOf_stop : CmdOutcome.stop.errorsOf = [] := rfl

@[simp] theorem CmdOutcome.errorsOf_err (e : String) :
    (CmdOutcome.err e).errorsOf = [e] := rfl

/-- Unfolding `tryAllSucceeded` at a first sub-chain. -/
theorem tryAllSucceeded_cons (a : List ChainStep) (rest : List (List ChainStep)) (ctx : Ctx) :
    tryAllSucceeded (a :: rest) ctx =
      ((runCmds a ctx).ctx?.isSome ||
        tryAllSucceeded rest
          (match (runCmds a ctx).ctx? with | some c' => c' | none => ctx)) := by
  simp [tryAllSucceeded, tryAllStarts]

/-- Unfolding `tryAllTraces` at a first sub-chain. -/
theorem tryAllTraces_cons (a : List ChainStep) (rest : List (List ChainStep)) (ctx : Ctx) :
    tryAllTraces (a :: rest) ctx =
      (runCmds a ctx).trace ++
        tryAllTraces rest
          (match (runCmds a ctx).ctx? with | some c' => c' | none => ctx) := by
  simp [tryAllTraces, tryAllStarts]

/-- Unfolding `tryAllErrors` at a first sub-chain. -/
theorem tryAllErrors_cons (a : List ChainStep) (rest : List (List ChainStep)) (ctx : Ctx) :
    tryAllErrors (a :: rest) ctx =
      (runCmds a ctx).errors ++
        tryAllErrors rest
          (match (runCmds a ctx).ctx? with | some c' => c' | none => ctx) := by
  simp [tryAllErrors, tryAllStarts]

/-- Full characterisation of a `tryAll` group with arbitrary sub-chains:
every sub-chain executes exactly once, in listed order, from its
accumulated start context; the group succeeds iff at least one sub-chain
succeeded, and then yields the accumulated context. -/
theorem tryAllAux_eq (alts : List (List ChainStep)) :
    ∀ (ctx : Ctx) (s : Bool),
      tryAllAux alts ctx s =
        ⟨if s || tryAllSucceeded alts ctx then some (tryAllAcc alts ctx) else none,
         tryAllTraces alts ctx, tryAllErrors alts ctx⟩ := by
  induction alts with
  | nil =>
    intro ctx s
    cases s <;>
      simp [tryAllAux, tryAllSucceeded, tryAllAcc, tryAllTraces, tryAllErrors, tryAllStarts]
  | cons a rest ih =>
    intro ctx s
    rw [tryAllSucceeded_cons, tryAllTraces_cons, tryAllErrors_cons]
    cases hr : runCmds a ctx with
    | mk c t e =>
      cases c with
      | some c' =>
        simp only [tryAllAux, tryAllAcc, hr, ih]
        simp
      | none =>
        simp only [tryAllAux, tryAllAcc, hr, ih]
        cases s <;> cases hx : tryAllSucceeded rest ctx <;> simp [hx]

/-- When each sub-chain is a simple chain whose steps all succeed, the
`tryAll` accumulator is the group-entry context merged with the
concatenation of every sub-chain's updates, in list order. -/
theorem tryAllAcc_runsNext :
    ∀ (specsList : List (List SimpleSpec)) (deltasList : List (List Ctx)) (ctx : Ctx),
      SubChainsRunNext ctx specsList deltasList →
      tryAllAcc (specsList.map (fun specs => specs.map compileSimple)) ctx =
        chainCtx ctx deltasList.flatten
  | [], [], _, _ => by simp [tryAllAcc, chainCtx]
  | [], _ :: _, _, h => absurd h (by simp [SubChainsRunNext])
  | _ :: _, [], _, h => absurd h (by simp [SubChainsRunNext])
  | specs :: sl, ds :: dl, ctx, h => by
    have h1 := runCmds_runsNext specs ds ctx h.1
    have ih := tryAllAcc_runsNext sl dl (chainCtx ctx ds) h.2
    simp only [List.map_cons, tryAllAcc, h1, ih]
    simp [chainCtx, List.foldl_append]

/-- The trace entry of the `i`-th step of a fully successful simple chain
pairs its label with the accumulated running context merged with its
per-call fragment. -/
theorem chainTrace_get (specs : List SimpleSpec) :
    ∀ (deltas : List Ctx) (base : Ctx) (i : Nat) (l : String) (opts : Ctx) (f : CommandFn),
      deltas.length = specs.length →
      specs[i]? = some (l, opts, f) →
      (chainTrace base specs deltas)[i]? =
        some (l, Ctx.merge (chainCtx base (deltas.take i)) opts) := by
  induction specs with
  | nil =>
    intro deltas base i l opts f _ hspec
    simp at hspec
  | cons p rest ih =>
    intro deltas base i l opts f hlen hspec
    cases deltas with
    | nil => simp at hlen
    | cons d ds =>
      obtain ⟨l', opts', f'⟩ := p
      cases i with
      | zero =>
        have : l' = l ∧ opts' = opts ∧ f' = f := by
          simpa using hspec
        obtain ⟨h1, h2, _⟩ := this
        subst h1; subst h2
        simp [chainTrace, chainCtx]
      | succ i' =>
        have hlen' : ds.length = rest.length := by simpa using hlen
        have hspec' : rest[i']? = some (l, opts, f) := by simpa using hspec
        have := ih ds (Ctx.merge base d) i' l opts f hlen' hspec'
        simpa [chainTrace, chainCtx] using this

/-- Merging acts on each key by letting the update override the base. -/
theorem Ctx.get_merge (a b : Ctx) (k : String) :
    Ctx.get (Ctx.merge a b) k = Ctx.override (Ctx.get a k) (Ctx.get b k) := by
  show Ctx.get (a ++ b) k = _
  induction a with
  | nil =>
    cases hb : Ctx.get b k <;> simp [Ctx.get, Ctx.override, hb]
  | cons p rest ih =>
    obtain ⟨k', v⟩ := p
    rw [List.cons_append]
    rw [Ctx.get, Ctx.get, ih]
    cases hb : Ctx.get b k <;> cases hr : Ctx.get rest k <;>
      simp [Ctx.override, hr]

/-- C9: an empty chain — built by `pipe()` with no steps recorded —
succeeds: `run()` returns true, since the alive flag starts true and
nothing can fail. -/
theorem empty_chain_succeeds (base : Ctx) : runChain [] base = true := rfl

/-- C7: for a single-step chain over a registered command, `run()`
returns true if and only if that command invoked its continuation. -/
theorem single_step_run_iff_continuation (reg : Registry) (n : String)
    (opts base : Ctx) (f : CommandFn) (h : reg n = some f) :
    runChain [namedStep reg n opts] base = (f (Ctx.merge base opts)).callsNext := by
  cases hf : f (Ctx.merge base opts) <;>
    simp [runChain, runCmds, namedStep, commandStep, h, hf]

/-- Witness for C7: a registered always-succeeding command run alone. -/
theorem single_step_run_iff_continuation_witness :
    regOne "command1" = some alwaysNext ∧
    runChain [namedStep regOne "command1" []] [] = true :=
  ⟨rfl, single_step_run_iff_continuation regOne "command1" [] [] alwaysNext rfl⟩

/-- C1: in a chain of simple (named or inline) steps, if the steps
before position `i` all succeed and the step at `i` fails (softly or by
throwing), then `run()` is false, the trace lists exactly the steps up to
and including the failing one, each invoked exactly once in order, and no
strictly-later step is ever invoked. -/
theorem chain_short_circuits_on_failed_step
    (base : Ctx) (pre : List SimpleSpec) (deltas : List Ctx)
    (l : String) (opts : Ctx) (f : CommandFn) (post : List ChainStep)
    (hpre : RunsNext base pre deltas)
    (hfail : (f (Ctx.merge (chainCtx base deltas) opts)).callsNext = false) :
    runChain (pre.map compileSimple ++ commandStep l f opts :: post) base = false ∧
    runCmds (pre.map compileSimple ++ commandStep l f opts :: post) base =
      ⟨none,
       chainTrace base pre deltas ++ [(l, Ctx.merge (chainCtx base deltas) opts)],
       (f (Ctx.merge (chainCtx base deltas) opts)).errorsOf⟩ := by
  have key : runCmds (pre.map compileSimple ++ commandStep l f opts :: post) base =
      ⟨none,
       chainTrace base pre deltas ++ [(l, Ctx.merge (chainCtx base deltas) opts)],
       (f (Ctx.merge (chainCtx base deltas) opts)).errorsOf⟩ := by
    rw [runCmds_append, runCmds_runsNext pre deltas base hpre]
    simp only [StepResult.andThen]
    rw [runCmds_cons]
    cases hf : f (Ctx.merge (chainCtx base deltas) opts) with
    | next d => rw [hf] at hfail; simp at hfail
    | stop => simp [StepResult.andThen, commandStep, hf]
    | err e => simp [StepResult.andThen, commandStep, hf]
  exact ⟨by simp [runChain, key], key⟩

/-- Witness for C1: a three-step chain whose second step fails softly. -/
theorem chain_short_circuits_on_failed_step_witness :
    RunsNext [] [("c1", ([] : Ctx), alwaysNextA)] [[("a", "1")]] ∧
    (alwaysStop (Ctx.merge (chainCtx [] [[("a", "1")]]) [])).callsNext = false ∧
    (runChain ([("c1", ([] : Ctx), alwaysNextA)].map compileSimple ++
        commandStep "c2" alwaysStop [] :: [commandStep "c3" alwaysNext []]) [] = false ∧
      runCmds ([("c1", ([] : Ctx), alwaysNextA)].map compileSimple ++
        commandStep "c2" alwaysStop [] :: [commandStep "c3" alwaysNext []]) [] =
        ⟨none, [("c1", []), ("c2", [("a", "1")])], []⟩) :=
  ⟨⟨rfl, trivial⟩, rfl,
    chain_short_circuits_on_failed_step [] [("c1", ([] : Ctx), alwaysNextA)] [[("a", "1")]]
      "c2" [] alwaysStop [commandStep "c3" alwaysNext []] ⟨rfl, trivial⟩ rfl⟩

/-- C2: in a chain of simple steps whose earlier steps all succeed, the
step at position `i` receives exactly the base context merged with the
updates of the earlier successful steps in step order (merged with its
own per-call fragment), and merging lets a later update overwrite an
earlier value under the same key. -/
theorem step_receives_merged_context
    (base : Ctx) (specs : List SimpleSpec) (deltas : List Ctx)
    (i : Nat) (l : String) (opts : Ctx) (f : CommandFn)
    (h : RunsNext base specs deltas)
    (hspec : specs[i]? = some (l, opts, f)) :
    (runCmds (specs.map compileSimple) base).trace[i]? =
      some (l, Ctx.merge (chainCtx base (deltas.take i)) opts) ∧
    ∀ (c d : Ctx) (k : String),
      Ctx.get (Ctx.merge c d) k = Ctx.override (Ctx.get c k) (Ctx.get d k) := by
  refine ⟨?_, fun c d k => Ctx.get_merge c d k⟩
  rw [runCmds_runsNext specs deltas base h]
  exact chainTrace_get specs deltas base i l opts f h.length_eq hspec

/-- Witness for C2: the second step observes the first step's update. -/
theorem step_receives_merged_context_witness :
    RunsNext [] [("c1", ([] : Ctx), alwaysNextA), ("c2", ([] : Ctx), alwaysNext)]
      [[("a", "1")], []] ∧
    [("c1", ([] : Ctx), alwaysNextA), ("c2", ([] : Ctx), alwaysNext)][1]? =
      some ("c2", ([] : Ctx), alwaysNext) ∧
    ((runCmds ([("c1", ([] : Ctx), alwaysNextA),
        ("c2", ([] : Ctx), alwaysNext)].map compileSimple) []).trace[1]? =
      some ("c2", [("a", "1")]) ∧
     ∀ (c d : Ctx) (k : String),
       Ctx.get (Ctx.merge c d) k = Ctx.override (Ctx.get c k) (Ctx.get d k)) :=
  ⟨⟨rfl, rfl, trivial⟩, rfl,
    step_receives_merged_context []
      [("c1", ([] : Ctx), alwaysNextA), ("c2", ([] : Ctx), alwaysNext)]
      [[("a", "1")], []] 1 "c2" [] alwaysNext ⟨rfl, rfl, trivial⟩ rfl⟩

/-- C6: a command that throws is caught at the point of invocation, the
original error value is reported, and the step behaves exactly like a
soft failure for chain continuation: the run result, trace and context
behaviour agree with the soft-failing variant, only the error report
differs, and `run()` returns false rather than propagating the throw. -/
theorem hard_failure_reported_like_soft
    (base : Ctx) (pre : List SimpleSpec) (deltas : List Ctx)
    (l : String) (opts : Ctx) (f g : CommandFn) (e : String) (post : List ChainStep)
    (hpre : RunsNext base pre deltas)
    (hthrow : f (Ctx.merge (chainCtx base deltas) opts) = CmdOutcome.err e)
    (hsoft : g (Ctx.merge (chainCtx base deltas) opts) = CmdOutcome.stop) :
    runChain (pre.map compileSimple ++ commandStep l f opts :: post) base = false ∧
    runCmds (pre.map compileSimple ++ commandStep l f opts :: post) base =
      ⟨none,
       chainTrace base pre deltas ++ [(l, Ctx.merge (chainCtx base deltas) opts)],
       [e]⟩ ∧
    runCmds (pre.map compileSimple ++ commandStep l g opts :: post) base =
      ⟨none,
       chainTrace base pre deltas ++ [(l, Ctx.merge (chainCtx base deltas) opts)],
       []⟩ := by
  have hthrowKey :
      runCmds (pre.map compileSimple ++ commandStep l f opts :: post) base =
        ⟨none,
         chainTrace base pre deltas ++ [(l, Ctx.merge (chainCtx base deltas) opts)],
         [e]⟩ := by
    rw [runCmds_append, runCmds_runsNext pre deltas base hpre]
    simp only [StepResult.andThen]
    rw [runCmds_cons]
    simp [StepResult.andThen, commandStep, hthrow]
  have hsoftKey :
      runCmds (pre.map compileSimple ++ commandStep l g opts :: post) base =
        ⟨none,
         chainTrace base pre deltas ++ [(l, Ctx.merge (chainCtx base deltas) opts)],
         []⟩ := by
    rw [runCmds_append, runCmds_runsNext pre deltas base hpre]
    simp only [StepResult.andThen]
    rw [runCmds_cons]
    simp [StepResult.andThen, commandStep, hsoft]
  exact ⟨by simp [runChain, hthrowKey], hthrowKey, hsoftKey⟩

/-- Witness for C6: the second step throws "boom"; the run matches the
soft-failing variant except for the reported error. -/
theorem hard_failure_reported_like_soft_witness :
    RunsNext [] [("c1", ([] : Ctx), alwaysNextA)] [[("a", "1")]] ∧
    alwaysThrow (Ctx.merge (chainCtx [] [[("a", "1")]]) []) = CmdOutcome.err "boom" ∧
    (runChain ([("c1", ([] : Ctx), alwaysNextA)].map compileSimple ++
        commandStep "c2" alwaysThrow [] :: [commandStep "c3" alwaysNext []]) [] = false ∧
      runCmds ([("c1", ([] : Ctx), alwaysNextA)].map compileSimple ++
        commandStep "c2" alwaysThrow [] :: [commandStep "c3" alwaysNext []]) [] =
        ⟨none, [("c1", []), ("c2", [("a", "1")])], ["boom"]⟩ ∧
      runCmds ([("c1", ([] : Ctx), alwaysNextA)].map compileSimple ++
        commandStep "c2" alwaysStop [] :: [commandStep "c3" alwaysNext []]) [] =
        ⟨none, [("c1", []), ("c2", [("a", "1")])], []⟩) :=
  ⟨⟨rfl, trivial⟩, rfl,
    hard_failure_reported_like_soft [] [("c1", ([] : Ctx), alwaysNextA)] [[("a", "1")]]
      "c2" [] alwaysThrow alwaysStop "boom" [commandStep "c3" alwaysNext []]
      ⟨rfl, trivial⟩ rfl rfl⟩

/-- C8: a per-call option fragment is merged with the then-current
running context and is visible exactly to the command it was passed to:
the earlier steps' received contexts do not mention it, and the chain
continues from the running context merged only with the command's own
continuation update, so a fragment key not reintroduced by that update
(or already present) is invisible afterwards. -/
theorem per_call_options_scoped
    (base : Ctx) (pre : List SimpleSpec) (deltas : List Ctx)
    (l : String) (opts : Ctx) (f : CommandFn) (d : Ctx) (post : List ChainStep)
    (hpre : RunsNext base pre deltas)
    (hf : f (Ctx.merge (chainCtx base deltas) opts) = CmdOutcome.next d) :
    runCmds (pre.map compileSimple ++ commandStep l f opts :: post) base =
      ⟨(runCmds post (Ctx.merge (chainCtx base deltas) d)).ctx?,
       (chainTrace base pre deltas ++ [(l, Ctx.merge (chainCtx base deltas) opts)]) ++
         (runCmds post (Ctx.merge (chainCtx base deltas) d)).trace,
       (runCmds post (Ctx.merge (chainCtx base deltas) d)).errors⟩ ∧
    (∀ k : String, Ctx.get (chainCtx base deltas) k = none → Ctx.get d k = none →
      Ctx.get (Ctx.merge (chainCtx base deltas) d) k = none) := by
  constructor
  · rw [runCmds_append, runCmds_runsNext pre deltas base hpre]
    simp only [StepResult.andThen]
    rw [runCmds_cons]
    simp [StepResult.andThen, commandStep, hf, List.append_assoc]
  · intro k h1 h2
    rw [Ctx.get_merge, h1, h2]
    rfl

/-- Witness for C8: the fragment key "opt" is seen by its command but is
gone from the chain afterwards. -/
theorem per_call_options_scoped_witness :
    RunsNext [] [] [] ∧
    optCmd (Ctx.merge (chainCtx [] []) [("opt", "v")]) = CmdOutcome.next [("d", "1")] ∧
    (runCmds (([] : List SimpleSpec).map compileSimple ++
        commandStep "c1" optCmd [("opt", "v")] :: [commandStep "c2" alwaysNext []]) [] =
      ⟨some [("d", "1")], [("c1", [("opt", "v")]), ("c2", [("d", "1")])], []⟩ ∧
     Ctx.get (Ctx.merge (chainCtx [] []) [("d", "1")]) "opt" = none) :=
  ⟨trivial, rfl, by
    have h := per_call_options_scoped [] [] [] "c1" [("opt", "v")] optCmd [("d", "1")]
      [commandStep "c2" alwaysNext []] trivial rfl
    exact ⟨h.1, h.2 "opt" rfl rfl⟩⟩

/-- C3: a `try` group executes its sub-chains in listed order only until
the first success; sub-chains after the first success are never invoked,
only the succeeding sub-chain's resulting context is retained and the
outer chain continues from it; if every sub-chain fails, the group fails,
no sub-chain's context is retained, the later top-level steps are skipped
and `run()` returns false. -/
theorem try_group_semantics :
    (∀ (ctx ctx' : Ctx) (front : List (List ChainStep)) (s : List ChainStep)
        (rest : List (List ChainStep)) (post : List ChainStep),
        (∀ alt ∈ front, (runCmds alt ctx).ctx? = none) →
        (runCmds s ctx).ctx? = some ctx' →
        runCmds (tryStep (front ++ s :: rest) :: post) ctx =
          ⟨(runCmds post ctx').ctx?,
           (joinTraces front ctx ++ (runCmds s ctx).trace) ++ (runCmds post ctx').trace,
           (joinErrors front ctx ++ (runCmds s ctx).errors) ++ (runCmds post ctx').errors⟩) ∧
    (∀ (ctx : Ctx) (alts : List (List ChainStep)) (post : List ChainStep),
        (∀ alt ∈ alts, (runCmds alt ctx).ctx? = none) →
        runChain (tryStep alts :: post) ctx = false ∧
        runCmds (tryStep alts :: post) ctx =
          ⟨none, joinTraces alts ctx, joinErrors alts ctx⟩) := by
  constructor
  · intro ctx ctx' front s rest post hfr hs
    rw [runCmds_cons]
    have h1 : tryAux (front ++ s :: rest) ctx =
        ⟨some ctx', joinTraces front ctx ++ (runCmds s ctx).trace,
          joinErrors front ctx ++ (runCmds s ctx).errors⟩ :=
      tryAux_first_success front s rest ctx ctx' hfr hs
    simp only [tryStep]
    rw [h1]
    simp [StepResult.andThen]
  · intro ctx alts post hall
    have h1 : tryAux alts ctx = ⟨none, joinTraces alts ctx, joinErrors alts ctx⟩ :=
      tryAux_all_fail alts ctx hall
    have key : runCmds (tryStep alts :: post) ctx =
        ⟨none, joinTraces alts ctx, joinErrors alts ctx⟩ := by
      rw [runCmds_cons]
      simp only [tryStep]
      rw [h1]
      simp [StepResult.andThen]
    exact ⟨by simp [runChain, key], key⟩

/-- Witness for C3: a group whose first sub-chain fails and second
succeeds (both run, later steps continue), and a group where every
sub-chain fails (later steps skipped, run false). -/
theorem try_group_semantics_witness :
    (∀ alt ∈ [[commandStep "c1" alwaysStop []]], (runCmds alt ([] : Ctx)).ctx? = none) ∧
    (runCmds [commandStep "c2" alwaysNext []] ([] : Ctx)).ctx? = some [] ∧
    runCmds (tryStep ([[commandStep "c1" alwaysStop []]] ++
        [commandStep "c2" alwaysNext []] :: [[commandStep "cx" alwaysNext []]]) ::
        [commandStep "c3" alwaysNext []]) [] =
      ⟨some [], [("c1", []), ("c2", []), ("c3", [])], []⟩ ∧
    (∀ alt ∈ [[commandStep "c1" alwaysStop []], [commandStep "c2" alwaysStop []]],
      (runCmds alt ([] : Ctx)).ctx? = none) ∧
    runChain (tryStep [[commandStep "c1" alwaysStop []], [commandStep "c2" alwaysStop []]] ::
        [commandStep "c3" alwaysNext []]) [] = false ∧
    runCmds (tryStep [[commandStep "c1" alwaysStop []], [commandStep "c2" alwaysStop []]] ::
        [commandStep "c3" alwaysNext []]) [] =
      ⟨none, [("c1", []), ("c2", [])], []⟩ := by
  have hfr : ∀ alt ∈ [[commandStep "c1" alwaysStop []]],
      (runCmds alt ([] : Ctx)).ctx? = none := by decide
  have hall : ∀ alt ∈ [[commandStep "c1" alwaysStop []], [commandStep "c2" alwaysStop []]],
      (runCmds alt ([] : Ctx)).ctx? = none := by decide
  have h1 := try_group_semantics.1 [] [] [[commandStep "c1" alwaysStop []]]
    [commandStep "c2" alwaysNext []] [[commandStep "cx" alwaysNext []]]
    [commandStep "c3" alwaysNext []] hfr rfl
  have h2 := try_group_semantics.2 []
    [[commandStep "c1" alwaysStop []], [commandStep "c2" alwaysStop []]]
    [commandStep "c3" alwaysNext []] hall
  exact ⟨hfr, rfl, h1, hall, h2.1, h2.2⟩

/-- C4: for every `tryAll` group, every sub-chain is invoked exactly
once, in listed order, regardless of earlier successes (the trace is one
segment per sub-chain); the group succeeds if and only if at least one
sub-chain succeeded; the running context afterwards is the accumulator
that each successful sub-chain in order replaces with its resulting
context, while a failed sub-chain — even one whose leading steps had
succeeded — contributes nothing; for sub-chains of simple steps that all
succeed, that accumulated context is exactly the group-entry context
merged with every sub-chain's updates in list order, a later update
winning on key collision; on total failure no context is merged and all
later top-level steps are skipped with `run()` false. -/
theorem tryAll_group_semantics (ctx : Ctx) (alts : List (List ChainStep))
    (post : List ChainStep) :
    tryAllStep alts ctx =
      ⟨if tryAllSucceeded alts ctx then some (tryAllAcc alts ctx) else none,
       tryAllTraces alts ctx, tryAllErrors alts ctx⟩ ∧
    (tryAllStep alts ctx).ctx?.isSome = tryAllSucceeded alts ctx ∧
    (tryAllSucceeded alts ctx = false →
      runChain (tryAllStep alts :: post) ctx = false ∧
      runCmds (tryAllStep alts :: post) ctx =
        ⟨none, tryAllTraces alts ctx, tryAllErrors alts ctx⟩) ∧
    ∀ (specsList : List (List SimpleSpec)) (deltasList : List (List Ctx)),
      SubChainsRunNext ctx specsList deltasList →
      tryAllAcc (specsList.map (fun specs => specs.map compileSimple)) ctx =
        chainCtx ctx deltasList.flatten := by
  have key : tryAllStep alts ctx =
      ⟨if tryAllSucceeded alts ctx then some (tryAllAcc alts ctx) else none,
       tryAllTraces alts ctx, tryAllErrors alts ctx⟩ := by
    show tryAllAux alts ctx false = _
    rw [tryAllAux_eq alts ctx false]
    cases hx : tryAllSucceeded alts ctx <;> simp [hx]
  refine ⟨key, ?_, ?_, ?_⟩
  · rw [key]
    cases hx : tryAllSucceeded alts ctx <;> simp [hx]
  · intro hnone
    have h2 : tryAllStep alts ctx =
        ⟨none, tryAllTraces alts ctx, tryAllErrors alts ctx⟩ := by
      rw [key, hnone]
      simp
    have keyRun : runCmds (tryAllStep alts :: post) ctx =
        ⟨none, tryAllTraces alts ctx, tryAllErrors alts ctx⟩ := by
      rw [runCmds_cons, h2]
      simp [StepResult.andThen]
    exact ⟨by simp [runChain, keyRun], keyRun⟩
  · exact fun sl dl h => tryAllAcc_runsNext sl dl ctx h

/-- Witness for C4: a group whose first sub-chain updates key "p" and
then fails softly while its second sub-chain succeeds — both steps of the
failed sub-chain and the succeeding one each appear once in the trace,
the "p" update is discarded, the group succeeds with only the second
sub-chain's update; a group whose sub-chains all fail skips the rest of
the chain with `run()` false and the thrown error reported; and two
simple succeeding sub-chains merge their updates in order, the later
winning on key "y". -/
theorem tryAll_group_semantics_witness :
    tryAllStep [[commandStep "c1" (fun _ => CmdOutcome.next [("p", "1")]) [],
        commandStep "c2" alwaysStop []],
      [commandStep "c3" (fun _ => CmdOutcome.next [("x", "3")]) []]] [] =
      ⟨some [("x", "3")], [("c1", []), ("c2", [("p", "1")]), ("c3", [])], []⟩ ∧
    tryAllSucceeded [[commandStep "c1" alwaysStop []],
      [commandStep "c2" alwaysThrow []]] [] = false ∧
    runChain (tryAllStep [[commandStep "c1" alwaysStop []],
        [commandStep "c2" alwaysThrow []]] :: [commandStep "c4" alwaysNext []]) [] = false ∧
    runCmds (tryAllStep [[commandStep "c1" alwaysStop []],
        [commandStep "c2" alwaysThrow []]] :: [commandStep "c4" alwaysNext []]) [] =
      ⟨none, [("c1", []), ("c2", [])], ["boom"]⟩ ∧
    SubChainsRunNext []
      [[("c1", ([] : Ctx), fun _ => CmdOutcome.next [("x", "1"), ("y", "1")])],
       [("c2", ([] : Ctx), fun _ => CmdOutcome.next [("y", "2")])]]
      [[[("x", "1"), ("y", "1")]], [[("y", "2")]]] ∧
    tryAllAcc ([[("c1", ([] : Ctx), fun _ => CmdOutcome.next [("x", "1"), ("y", "1")])],
        [("c2", ([] : Ctx), fun _ => CmdOutcome.next [("y", "2")])]].map
      (fun specs => specs.map compileSimple)) [] = [("x", "1"), ("y", "1"), ("y", "2")] ∧
    Ctx.get [("x", "1"), ("y", "1"), ("y", "2")] "y" = some "2" := by
  have h1 := tryAll_group_semantics []
    [[commandStep "c1" (fun _ => CmdOutcome.next [("p", "1")]) [],
        commandStep "c2" alwaysStop []],
      [commandStep "c3" (fun _ => CmdOutcome.next [("x", "3")]) []]]
    [commandStep "c4" alwaysNext []]
  have h2 := tryAll_group_semantics []
    [[commandStep "c1" alwaysStop []], [commandStep "c2" alwaysThrow []]]
    [commandStep "c4" alwaysNext []]
  have h3 := h2.2.2.1 rfl
  have hrn : SubChainsRunNext []
      [[("c1", ([] : Ctx), fun _ => CmdOutcome.next [("x", "1"), ("y", "1")])],
       [("c2", ([] : Ctx), fun _ => CmdOutcome.next [("y", "2")])]]
      [[[("x", "1"), ("y", "1")]], [[("y", "2")]]] :=
    ⟨⟨rfl, trivial⟩, ⟨rfl, trivial⟩, trivial⟩
  exact ⟨h1.1, rfl, h3.1, h3.2, hrn, h1.2.2.2 _ _ hrn, rfl⟩

/-- C5 counterexample: sub-chains of a `tryAll` group do not each run
from a copy of the pre-group running context.  In `siblingAlts`, run from
the empty context, the first sub-chain sets key "k"; the probe in the
second sub-chain receives a context in which "k" is already visible
(`some "a"`), where a pre-group snapshot would make both entries `none`. -/
theorem tryAll_sibling_update_visible_cex :
    (tryAllStep siblingAlts []).trace.map (fun entry => Ctx.get entry.2 "k") =
      [none, some "a"] := rfl

/-- C5 (amended): each sub-chain of a `tryAll` group runs from the
accumulated context (the first from the group-entry context; a successful
sub-chain's resulting context becomes the accumulator seen by later
siblings; a failed sub-chain leaves the accumulator unchanged), so
sibling updates are visible inside the group as soon as the contributing
sub-chain succeeds. -/
theorem tryAll_runs_each_from_accumulated (alts : List (List ChainStep)) (ctx : Ctx) :
    (tryAllStep alts ctx).trace =
      ((alts.zip (tryAllStarts alts ctx)).map (fun p => (runCmds p.1 p.2).trace)).flatten :=
  tryAllAux_trace alts ctx false

/-- C10: when there is no current text selection or no target block, or
when the end caret's node is not among the target block's text nodes,
`changeTextSelectionSideways` returns without invoking its continuation
and without attempting any selection change. -/
theorem changeTextSelectionSideways_soft_fail (env : SidewaysEnv) (ctx : SidewaysCtx)
    (h : env.getCurrentTextSelectionCarets = none ∨ ctx.targetBlock = none ∨
      (∃ cs b, env.getCurrentTextSelectionCarets = some cs ∧ ctx.targetBlock = some b ∧
        ∀ t ∈ env.getTextNodesFromElement b, (t.id == cs.endCaret.node) = false)) :
    changeTextSelectionSideways env ctx = ⟨false, []⟩ := by
  rcases h with h | h | ⟨cs, b, hcs, hb, hnone⟩
  · simp [changeTextSelectionSideways, h]
  · cases hcs : env.getCurrentTextSelectionCarets <;>
      simp [changeTextSelectionSideways, h, hcs]
  · have hidx : (env.getTextNodesFromElement b).findIdx?
        (fun t => t.id == cs.endCaret.node) = none := by
      rw [List.findIdx?_eq_none_iff]
      exact hnone
    simp [changeTextSelectionSideways, hcs, hb, hidx]

/-- Witness for C10: no current selection at all. -/
theorem changeTextSelectionSideways_soft_fail_witness :
    sidewaysEnvNoSel.getCurrentTextSelectionCarets = none ∧
    changeTextSelectionSideways sidewaysEnvNoSel ⟨true, some 0⟩ = ⟨false, []⟩ :=
  ⟨rfl, changeTextSelectionSideways_soft_fail sidewaysEnvNoSel ⟨true, some 0⟩ (Or.inl rfl)⟩

end Blocksuite

